import Mathlib

/-! A shallow embedding of `clocker.cpp`, the clocker time-tracking tool.

The program keeps a log file of clock-in / clock-out events.  The embedding
models

* C strings and file contents as `List Char` (one `Char` per byte of the file);
* the process environment as the value of `CLOCKER_FILE` (`none` when unset);
* the file system as a map from path to content (`none` when no file exists);
* `std::ifstream` as the unread characters plus the `eofbit` / `failbit` flags,
  with `std::ws` and `std::getline` following the C++ standard's description of
  them (sentry check, flags set at end of file);
* the standard streams as the text written to them so far;
* `exit(1)` inside `usage()` as the exit status returned by `main`.

An append-mode open can fail: it always does on the empty path, and on any
other path it succeeds when the state says the file system allows it
(`World.canAppend`); a successful one creates the file when absent.  The
source never tests the stream, so after a failed open nothing is written.

Modelling assumptions: a file that exists can be opened for reading, a write
through an open stream is complete and can be read back, the file map is
indexed by path string (two strings that designate one file are not related),
and `std::string::max_size()` is never reached.
-/

namespace Clocker

/-! ## C library and iostream primitives -/

/-- The C locale `isspace`: space, `\t`, `\n`, `\v`, `\f`, `\r`. -/
def isspace (c : Char) : Bool :=
  c.toNat == 32 || (9 ≤ c.toNat && c.toNat ≤ 13)

/-- The C function `strncmp` on NUL-terminated strings given without their
terminator: the end of a list plays the role of the terminating NUL. -/
def strncmp : List Char → List Char → Nat → Int
  | _, _, 0 => 0
  | [], [], _ + 1 => 0
  | [], c2 :: _, _ + 1 => 0 - (c2.toNat : Int)
  | c1 :: _, [], _ + 1 => (c1.toNat : Int)
  | c1 :: r1, c2 :: r2, n + 1 =>
    if c1 = c2 then (if c1.toNat = 0 then 0 else strncmp r1 r2 n)
    else (c1.toNat : Int) - (c2.toNat : Int)

/-- The member `std::string::find(const char*)`: position of the first
occurrence of `pat` in `s`, `none` standing for `npos`. -/
def find (s pat : List Char) : Option Nat :=
  if pat.isPrefixOf s then some 0
  else match s with
    | [] => none
    | _ :: t => (find t pat).map (· + 1)

/-- An input file stream: whether a file is attached, the characters not yet
read, and the two state flags the program depends on. -/
structure IStream where
  is_open : Bool
  buf : List Char
  eofbit : Bool
  failbit : Bool
  deriving DecidableEq, Repr

/-- The manipulator `std::ws`: the sentry sets `failbit` on a stream that is not
good; otherwise white space is discarded, and `eofbit` alone is set when that
reaches the end of the file. -/
def ws (s : IStream) : IStream :=
  if s.eofbit || s.failbit then { s with failbit := true }
  else
    let rest := s.buf.dropWhile isspace
    { s with buf := rest, eofbit := rest.isEmpty }

/-- The function `std::getline(is, str)` with the newline delimiter: the sentry
sets `failbit` on a stream that is not good and leaves `str` alone; otherwise
`str` is erased and characters are moved to it up to a newline (extracted and
dropped) or the end of the file (`eofbit`, and `failbit` when nothing at all was
extracted). -/
def getline (s : IStream) (str : List Char) : IStream × List Char :=
  if s.eofbit || s.failbit then ({ s with failbit := true }, str)
  else
    let line := s.buf.takeWhile (fun c => c != '\n')
    match s.buf.dropWhile (fun c => c != '\n') with
    | [] => ({ s with buf := [], eofbit := true, failbit := line.isEmpty }, line)
    | _ :: rest => ({ s with buf := rest }, line)

/-! ## Program state -/

/-- What the program can observe and change: the value of the environment
variable `CLOCKER_FILE`, the files by path, and the text sent to standard
output and standard error.  `canAppend` tells for each path whether the file
system lets it be opened in append mode (its directory exists, permission is
granted), and `opens` records, in order, the paths the program has passed to
`open` in append mode. -/
structure World where
  env : Option (List Char)
  fs : List Char → Option (List Char)
  out : List Char
  err : List Char
  canAppend : List Char → Bool
  opens : List (List Char)

/-! ## The functions of `clocker.cpp` -/

/-- Source `getClockerFileName`: the value of `CLOCKER_FILE`, or `.clocker`
when `getenv` returns `NULL`. -/
def getClockerFileName (w : World) : List Char :=
  match w.env with
  | none => ".clocker".toList
  | some pPath => pPath

/-- Source `getClockerInFile`: an `ifstream` opened on the clocker file; the
open fails (stream not open, `failbit` set) when there is no file. -/
def getClockerInFile (w : World) : IStream :=
  match w.fs (getClockerFileName w) with
  | none => { is_open := false, buf := [], eofbit := false, failbit := true }
  | some content => { is_open := true, buf := content, eofbit := false, failbit := false }

/-- The loop `while (*fin >> ws && getline(*fin, line)) ;` of `getLastLine`.
Each turn that goes on has extracted at least one character, so
`buf.length + 1` turns are enough (`getLastLine_loop_fuel`). -/
def getLastLine_loop : Nat → IStream → List Char → IStream × List Char
  | 0, fin, line => (fin, line)
  | fuel + 1, fin, line =>
    let fin1 := ws fin
    if fin1.failbit then (fin1, line)
    else
      let r := getline fin1 line
      if r.1.failbit then r else getLastLine_loop fuel r.1 r.2

/-- Source `getLastLine`. -/
def getLastLine (w : World) : List Char :=
  let fin := getClockerInFile w
  if fin.is_open then (getLastLine_loop (fin.buf.length + 1) fin []).2 else []

/-- Source `isClockedIn`. -/
def isClockedIn (w : World) : Bool :=
  if find (getLastLine w) "IN".toList != none then true else false

/-- An output file stream opened in append mode on `path`. -/
structure OFStream where
  path : List Char
  is_open : Bool
  deriving DecidableEq, Repr

/-- Whether `open(pPath, ios::app)` succeeds: never on the empty path, which
names no file, and on any other path when the file system allows it. -/
def appendOpens (w : World) (pPath : List Char) : Bool :=
  !pPath.isEmpty && w.canAppend pPath

/-- Source `getClockerOutFile`: open the clocker file with `ios::app`.  When the
open succeeds it creates an empty file if there is none and keeps the content
otherwise; when it fails no file is created and the stream, which the source
does not test, is returned closed.  Either way the path is recorded in
`opens`. -/
def getClockerOutFile (w : World) : World × OFStream :=
  let pPath := getClockerFileName w
  if appendOpens w pPath then
    ({ w with fs := fun q => if q = pPath then some ((w.fs pPath).getD []) else w.fs q,
              opens := w.opens ++ [pPath] },
     { path := pPath, is_open := true })
  else
    ({ w with opens := w.opens ++ [pPath] }, { path := pPath, is_open := false })

/-- Insertion `*fout << text << endl` on an append-mode stream: `text` and a
newline go to the end of the file; nothing is written through a stream whose
open failed. -/
def fout_write (w : World) (fout : OFStream) (text : List Char) : World :=
  if fout.is_open then
    { w with fs := fun q =>
        if q = fout.path then some ((w.fs fout.path).getD [] ++ text ++ ['\n']) else w.fs q }
  else w

/-- Insertion `cout << text << endl`. -/
def cout_write (w : World) (text : List Char) : World :=
  { w with out := w.out ++ text ++ ['\n'] }

/-- Insertion `cerr << text << endl`. -/
def cerr_write (w : World) (text : List Char) : World :=
  { w with err := w.err ++ text ++ ['\n'] }

/-- The text printed by `usage`. -/
def usageText : List Char :=
  ("usage: clocker [-h] [in, out, report]\n" ++
   "clocker records working durations between clock in and clock out events.\n\n" ++
   "Option\n" ++
   "------\n" ++
   "-h    Print this usage message and exit.\n\n" ++
   "Example\n" ++
   "-------\n" ++
   "Start the day by clocking in\n" ++
   "  $ clocker in\n" ++
   "Then, end the day by clocking out\n" ++
   "  $ clocker out\n" ++
   "At the end of the week, print a report of the hours worked\n" ++
   "  $ clocker report\n").toList

/-- Source `usage`: print the usage text to standard error and `exit(1)`; the
result is the final state with the exit status. -/
def usage (w : World) : World × Int :=
  ({ w with err := w.err ++ usageText }, 1)

/-- Source `clockIn`. -/
def clockIn (w : World) : World :=
  if isClockedIn w then cerr_write w "ERROR: Already clocked in.".toList
  else
    let w1 := cout_write w "clocking in".toList
    let r := getClockerOutFile w1
    fout_write r.1 r.2 "clocking IN".toList

/-- Source `clockOut`. -/
def clockOut (w : World) : World :=
  if !isClockedIn w then cerr_write w "ERROR: Not clocked in.".toList
  else
    let w1 := cout_write w "clocking out".toList
    let r := getClockerOutFile w1
    fout_write r.1 r.2 "clocking OUT".toList

/-- Source `report`. -/
def report (w : World) : World :=
  cout_write w "weekly report".toList

/-- Source `main`: `argv` is the whole argument vector (program name first),
`argc` its length; the result is the final state with the exit status. -/
def main (argv : List (List Char)) (w : World) : World × Int :=
  if argv.length ≠ 2 then usage w
  else
    let arg := argv.getD 1 []
    if strncmp arg "-h".toList 2 = 0 || strncmp arg "--help".toList 6 = 0 then usage w
    else if strncmp arg "in".toList 2 = 0 then (clockIn w, 0)
    else if strncmp arg "out".toList 3 = 0 then (clockOut w, 0)
    else if strncmp arg "report".toList 6 = 0 then (report w, 0)
    else usage w

/-- The content of the clocker file, an absent file counting as empty. -/
def logContent (w : World) : List Char :=
  (w.fs (getClockerFileName w)).getD []

/-- A state with only the clocker file: `env` for `CLOCKER_FILE`, `file` for the
file it designates, no other file, nothing printed yet, every path but the
empty one open to appending, no append-mode open made yet. -/
def mkWorld (env : Option (List Char)) (file : Option (List Char)) : World :=
  let name := match env with | none => ".clocker".toList | some p => p
  { env := env, fs := fun q => if q = name then file else none, out := [], err := [],
    canAppend := fun _ => true, opens := [] }

/-! ## The spec's vocabulary -/

/-- The lines of a text: each newline ends a line, and characters after the
last newline form a final line. -/
def lines : List Char → List (List Char)
  | [] => []
  | c :: cs =>
    if c = '\n' then [] :: lines cs
    else match lines cs with
      | [] => [[c]]
      | l :: ls => (c :: l) :: ls

/-- A line that is empty or made of white space only. -/
def isBlank (l : List Char) : Bool := l.all isspace

/-- The spec's `lastMeaningfulLine`, written from its words: skip the lines
that are empty or whitespace-only and return the last line that remains, the
empty string when none does. -/
def lastMeaningfulLine (ls : List (List Char)) : List Char :=
  ((ls.filter (fun l => !isBlank l)).getLast?).getD []

/-- Substring containment, as a decidable test. -/
def containsStr (s pat : List Char) : Bool :=
  match s with
  | [] => pat.isEmpty
  | _ :: t => pat.isPrefixOf s || containsStr t pat

/-- The non-blank lines of a text, each without its leading white space. -/
def meaningful (b : List Char) : List (List Char) :=
  ((lines b).filter (fun l => !isBlank l)).map (fun l => l.dropWhile isspace)

/-- A freshly opened stream on `b`. -/
def freshStream (b : List Char) : IStream :=
  { is_open := true, buf := b, eofbit := false, failbit := false }

/-- The state after the text `line` and a newline went to the end of the
clocker file and `msg` and a newline to standard output. -/
def appended (w : World) (msg line : List Char) : World :=
  { env := w.env,
    fs := fun q => if q = getClockerFileName w then some (logContent w ++ line ++ ['\n'])
                   else w.fs q,
    out := w.out ++ msg ++ ['\n'],
    err := w.err,
    canAppend := w.canAppend,
    opens := w.opens ++ [getClockerFileName w] }

/-- The state after an accepted command whose append-mode open failed: `msg`
and a newline went to standard output, the open was asked for, and no file
changed. -/
def notWritten (w : World) (msg : List Char) : World :=
  { w with out := w.out ++ msg ++ ['\n'], opens := w.opens ++ [getClockerFileName w] }

/-- The file name as a function of the value of `CLOCKER_FILE` alone. -/
def fileNameOf (env : Option (List Char)) : List Char :=
  match env with
  | none => ".clocker".toList
  | some pPath => pPath

/-- The spec's command matching, written from its words: an argument is
recognized when it starts with "in", "out" or "report". -/
def recognized (a : List Char) : Prop :=
  "in".toList <+: a ∨ "out".toList <+: a ∨ "report".toList <+: a

instance (a : List Char) : Decidable (recognized a) := by
  unfold recognized
  exact inferInstance

/-- The relation between the state before and after one run that the
append-only property asks for. -/
def appendOnly (w w1 : World) : Prop :=
  getClockerFileName w1 = getClockerFileName w ∧
  logContent w <+: logContent w1 ∧
  (w1.fs = w.fs ∨
    w1.fs (getClockerFileName w) = some (logContent w ++ "clocking IN\n".toList) ∨
    w1.fs (getClockerFileName w) = some (logContent w ++ "clocking OUT\n".toList)) ∧
  (∀ q, q ≠ getClockerFileName w → w1.fs q = w.fs q)

/-- The text after the last newline of a log: its last line when that line is
not ended by a newline, empty when the log is empty or ends with a newline. -/
def lastFragment (c : List Char) : List Char :=
  (c.reverse.takeWhile (fun x => x != '\n')).reverse

/-- The three commands of a run. -/
inductive Cmd where
  | clockIn
  | clockOut
  | report
  deriving DecidableEq, Repr

/-- The command-line argument that selects a command. -/
def Cmd.arg : Cmd → List Char
  | Cmd.clockIn => "in".toList
  | Cmd.clockOut => "out".toList
  | Cmd.report => "report".toList

/-- One invocation `clocker <command>`: the state that `main` leaves. -/
def exec (c : Cmd) (w : World) : World :=
  (main ["clocker".toList, c.arg] w).1

/-- A finite sequence of invocations, run first to last. -/
def run (cs : List Cmd) (w : World) : World :=
  cs.foldl (fun v c => exec c v) w

/-- The line at place `i` (from 0) of an alternating log: "clocking IN" at even
places, "clocking OUT" at odd places. -/
def altLine (i : Nat) : List Char :=
  if i % 2 = 0 then "clocking IN".toList else "clocking OUT".toList

/-- The text made of the given lines, each ended by a newline. -/
def unlines : List (List Char) → List Char
  | [] => []
  | l :: ls => l ++ '\n' :: unlines ls

/-! ## Lemmas on lines -/

theorem isspace_newline : isspace '\n' = true := by decide

theorem lines_cons_newline (cs : List Char) : lines ('\n' :: cs) = [] :: lines cs := by
  simp [lines]

theorem lines_cons_of_ne (c : Char) (cs : List Char) (hc : c ≠ '\n') :
    lines (c :: cs) = (match lines cs with
      | [] => [[c]]
      | l :: ls => (c :: l) :: ls) := by
  simp [lines, hc]

theorem lines_no_newline (l : List Char) (hne : l ≠ []) (h : ∀ c ∈ l, c ≠ '\n') :
    lines l = [l] := by
  induction l with
  | nil => exact absurd rfl hne
  | cons c t ih =>
    have hc : c ≠ '\n' := h c (List.mem_cons_self _ _)
    cases t with
    | nil => simp [lines, hc]
    | cons d u =>
      have := ih (by simp) (fun x hx => h x (List.mem_cons_of_mem _ hx))
      rw [lines_cons_of_ne c _ hc, this]

theorem lines_append_newline (l rest : List Char) (h : ∀ c ∈ l, c ≠ '\n') :
    lines (l ++ '\n' :: rest) = l :: lines rest := by
  induction l with
  | nil => simp [lines]
  | cons c t ih =>
    have hc : c ≠ '\n' := h c (List.mem_cons_self _ _)
    have := ih (fun x hx => h x (List.mem_cons_of_mem _ hx))
    rw [List.cons_append, lines_cons_of_ne c _ hc, this]

theorem meaningful_nil : meaningful [] = [] := by
  simp [meaningful, lines]

theorem meaningful_cons_space (c : Char) (b : List Char) (hc : isspace c = true) :
    meaningful (c :: b) = meaningful b := by
  by_cases hn : c = '\n'
  · subst hn
    simp [meaningful, lines, isBlank]
  · unfold meaningful
    rw [lines_cons_of_ne c b hn]
    cases h : lines b with
    | nil => simp [isBlank, hc]
    | cons l ls =>
      by_cases hl : isBlank l = true
      · have hcl : isBlank (c :: l) = true := by
          simp only [isBlank, List.all_cons, hc, Bool.true_and] at hl ⊢
          exact hl
        simp [List.filter_cons, hl, hcl]
      · have hcl : ¬ isBlank (c :: l) = true := by
          simp only [isBlank, List.all_cons, hc, Bool.true_and] at hl ⊢
          exact hl
        simp [List.filter_cons, hl, hcl, List.dropWhile_cons_of_pos hc]

theorem meaningful_dropWhile (b : List Char) :
    meaningful (b.dropWhile isspace) = meaningful b := by
  induction b with
  | nil => rfl
  | cons c t ih =>
    by_cases hc : isspace c = true
    · rw [List.dropWhile_cons_of_pos hc, ih, meaningful_cons_space c t hc]
    · rw [List.dropWhile_cons_of_neg hc]

/-- One physical line starting with a visible character: the characters up to
the first newline, and what follows that newline. -/
theorem split_at_newline (l : List Char) :
    (∀ c ∈ l.takeWhile (fun c => c != '\n'), c ≠ '\n') ∧
    (l.dropWhile (fun c => c != '\n') = [] → l.takeWhile (fun c => c != '\n') = l) ∧
    (∀ d rest, l.dropWhile (fun c => c != '\n') = d :: rest →
      l = l.takeWhile (fun c => c != '\n') ++ '\n' :: rest) := by
  refine ⟨?_, ?_, ?_⟩
  · intro c hc
    have := List.mem_takeWhile_imp hc
    simpa using this
  · intro h
    have := List.takeWhile_append_dropWhile (fun c => c != '\n') l
    rw [h, List.append_nil] at this
    exact this
  · intro d rest h
    have e := List.takeWhile_append_dropWhile (fun c => c != '\n') l
    have hd := List.head?_dropWhile_not (fun c => c != '\n') l
    rw [h] at hd e
    have hd2 : d = '\n' := by simpa using hd
    subst hd2
    exact e.symm

theorem meaningful_line_eof (x : Char) (t : List Char) (hx : isspace x = false)
    (h : (x :: t).dropWhile (fun c => c != '\n') = []) :
    meaningful (x :: t) = [x :: t] := by
  obtain ⟨h1, h2, _⟩ := split_at_newline (x :: t)
  have hl : lines (x :: t) = [x :: t] := by
    apply lines_no_newline _ (by simp)
    rw [← h2 h]
    exact h1
  simp [meaningful, hl, isBlank, hx]

theorem meaningful_line_newline (x d : Char) (t rest : List Char) (hx : isspace x = false)
    (h : (x :: t).dropWhile (fun c => c != '\n') = d :: rest) :
    meaningful (x :: t) = (x :: t).takeWhile (fun c => c != '\n') :: meaningful rest := by
  obtain ⟨h1, _, h3⟩ := split_at_newline (x :: t)
  have hxn : (x != '\n') = true := by
    rw [bne_iff_ne]
    rintro rfl
    simp [isspace_newline] at hx
  have htk : (x :: t).takeWhile (fun c => c != '\n') = x :: t.takeWhile (fun c => c != '\n') := by
    simp [List.takeWhile_cons, hxn]
  have hl : lines (x :: t) = (x :: t).takeWhile (fun c => c != '\n') :: lines rest := by
    conv_lhs => rw [h3 d rest h]
    exact lines_append_newline _ _ h1
  unfold meaningful
  rw [hl, htk]
  simp [isBlank, hx, List.filter_cons]

/-! ## The reading loop -/

theorem ws_length_le (s : IStream) : (ws s).buf.length ≤ s.buf.length := by
  unfold ws
  split
  · exact Nat.le_refl _
  · exact (List.dropWhile_sublist _).length_le

theorem getline_progress (s : IStream) (str : List Char)
    (h : (getline s str).1.failbit = false) :
    (getline s str).1.buf.length < s.buf.length := by
  unfold getline at h ⊢
  split at h
  · simp at h
  · have e := List.takeWhile_append_dropWhile (fun c => c != '\n') s.buf
    rw [if_neg (by assumption)]
    cases hd : s.buf.dropWhile (fun c => c != '\n') with
    | nil =>
      rw [hd] at e h
      simp only [List.append_nil] at e
      simp only [List.isEmpty_eq_false, e] at h
      simp only [List.length_nil]
      exact List.length_pos.mpr (by simpa using h)
    | cons d rest =>
      rw [hd] at e
      simp only
      rw [← e]
      simp
      omega

/-- The reading loop never runs out of turns: with more turns than unread
characters, one more turn changes nothing. -/
theorem getLastLine_loop_succ (fuel : Nat) :
    ∀ (s : IStream) (line : List Char), s.buf.length < fuel →
      getLastLine_loop (fuel + 1) s line = getLastLine_loop fuel s line := by
  induction fuel with
  | zero => intro s line h; exact absurd h (Nat.not_lt_zero _)
  | succ n ih =>
    intro s line h
    rw [getLastLine_loop, getLastLine_loop]
    by_cases h1 : (ws s).failbit = true
    · simp [h1]
    · by_cases h2 : (getline (ws s) line).1.failbit = true
      · simp [h1, h2]
      · simp only [h1, h2, if_false, Bool.false_eq_true]
        apply ih
        have a := getline_progress (ws s) line (by simpa using h2)
        have b := ws_length_le s
        omega

/-- Enough turns: any number of turns above the number of unread characters
gives the result of `buf.length + 1` turns, the number `getLastLine` uses. -/
theorem getLastLine_loop_fuel (s : IStream) (line : List Char) (k : Nat) :
    getLastLine_loop (s.buf.length + 1 + k) s line =
      getLastLine_loop (s.buf.length + 1) s line := by
  induction k with
  | zero => rfl
  | succ k ih =>
    rw [← Nat.add_assoc, getLastLine_loop_succ _ s line (by omega), ih]

/-- With enough turns the loop stops on its own condition: the stream has
failed when it ends. -/
theorem getLastLine_loop_ends_failed (fuel : Nat) :
    ∀ (s : IStream) (line : List Char), s.buf.length < fuel →
      (getLastLine_loop fuel s line).1.failbit = true := by
  induction fuel with
  | zero => intro s line h; exact absurd h (Nat.not_lt_zero _)
  | succ n ih =>
    intro s line h
    rw [getLastLine_loop]
    by_cases h1 : (ws s).failbit = true
    · simp [h1]
    · by_cases h2 : (getline (ws s) line).1.failbit = true
      · simp [h1, h2]
      · simp only [h1, h2, if_false, Bool.false_eq_true]
        apply ih
        have a := getline_progress (ws s) line (by simpa using h2)
        have b := ws_length_le s
        omega

theorem getLastLine_loop_not_good (fuel : Nat) (s : IStream) (line : List Char)
    (h : (s.eofbit || s.failbit) = true) :
    (getLastLine_loop fuel s line).2 = line := by
  cases fuel with
  | zero => rfl
  | succ n => simp [getLastLine_loop, ws, h]

theorem getLastD_cons (a d : List Char) (l : List (List Char)) :
    ((a :: l).getLast?).getD d = (l.getLast?).getD a := by
  cases l with
  | nil => rfl
  | cons b t =>
    rw [List.getLast?_cons_cons, List.getLast?_eq_getLast _ (List.cons_ne_nil b t)]
    rfl

/-- What the reading loop leaves in `line`: the last non-blank line of the
unread text without its leading white space, or the old value when the unread
text has no such line. -/
theorem getLastLine_loop_fresh (fuel : Nat) :
    ∀ (b line : List Char), b.length < fuel →
      (getLastLine_loop fuel (freshStream b) line).2 = ((meaningful b).getLast?).getD line := by
  induction fuel with
  | zero => intro b line h; exact absurd h (Nat.not_lt_zero _)
  | succ n ih =>
    intro b line hlt
    rw [← meaningful_dropWhile b]
    have hlen : (b.dropWhile isspace).length ≤ b.length := (List.dropWhile_sublist _).length_le
    cases hd : b.dropWhile isspace with
    | nil =>
      simp [getLastLine_loop, ws, freshStream, hd, getline, meaningful_nil]
    | cons x t =>
      have hx : isspace x = false := by
        have := List.head?_dropWhile_not isspace b
        rw [hd] at this
        simpa using this
      rw [hd] at hlen
      cases hl : (x :: t).dropWhile (fun c => c != '\n') with
      | nil =>
        rw [meaningful_line_eof x t hx hl]
        have htk := (split_at_newline (x :: t)).2.1 hl
        have hfin : (getLastLine_loop (n + 1) (freshStream b) line).2 =
            (getLastLine_loop n
              { is_open := true, buf := [], eofbit := true, failbit := false } (x :: t)).2 := by
          simp [getLastLine_loop, ws, freshStream, hd, getline, hl, htk]
        rw [hfin, getLastLine_loop_not_good _ _ _ (by rfl)]
        rfl
      | cons d rest =>
        rw [meaningful_line_newline x d t rest hx hl, getLastD_cons]
        have hrest : rest.length < n := by
          have := (split_at_newline (x :: t)).2.2 d rest hl
          have hh := congrArg List.length this
          simp at hh hlen
          omega
        rw [← ih rest _ hrest]
        simp [getLastLine_loop, ws, freshStream, hd, getline, hl]

theorem getLast?_map_getD (f : List Char → List Char) (l : List (List Char)) (hf : f [] = []) :
    ((l.map f).getLast?).getD [] = f ((l.getLast?).getD []) := by
  rw [List.getLast?_map]
  cases l.getLast? with
  | none => simp [hf]
  | some a => simp

/-- Characterisation of `getLastLine`: the last line of the clocker file that
is not blank, without its leading white space; empty when there is none. -/
theorem getLastLine_eq (w : World) :
    getLastLine w = (lastMeaningfulLine (lines (logContent w))).dropWhile isspace := by
  unfold getLastLine getClockerInFile logContent lastMeaningfulLine
  cases h : w.fs (getClockerFileName w) with
  | none => simp [lines]
  | some content =>
    have := getLastLine_loop_fresh (content.length + 1) content [] (Nat.lt_succ_self _)
    simp only [freshStream] at this
    simp only [if_true, Option.getD_some]
    rw [this, meaningful, getLast?_map_getD _ _ (by rfl)]

/-! ## Substring search -/

theorem find_isSome_iff (s pat : List Char) :
    (find s pat).isSome = containsStr s pat := by
  induction s with
  | nil =>
    unfold find containsStr
    cases pat <;> simp [List.isPrefixOf]
  | cons c t ih =>
    unfold find containsStr
    by_cases h : pat.isPrefixOf (c :: t) = true
    · simp [h]
    · simp [h, ih]

theorem containsStr_iff (s pat : List Char) : containsStr s pat = true ↔ pat <:+: s := by
  induction s with
  | nil =>
    unfold containsStr
    simp [List.isEmpty_iff]
  | cons c t ih =>
    unfold containsStr
    rw [Bool.or_eq_true, ih, List.isPrefixOf_iff_prefix, List.infix_cons_iff]

theorem containsStr_cons_space (c : Char) (t : List Char) (x : Char) (p : List Char)
    (hc : isspace c = true) (hx : isspace x = false) :
    containsStr (c :: t) (x :: p) = containsStr t (x :: p) := by
  have hne : x ≠ c := by
    rintro rfl
    rw [hc] at hx
    exact Bool.noConfusion hx
  conv_lhs => unfold containsStr
  simp [List.isPrefixOf, hne]

theorem containsStr_dropWhile (s : List Char) (x : Char) (p : List Char)
    (hx : isspace x = false) :
    containsStr (s.dropWhile isspace) (x :: p) = containsStr s (x :: p) := by
  induction s with
  | nil => rfl
  | cons c t ih =>
    by_cases hc : isspace c = true
    · rw [List.dropWhile_cons_of_pos hc, ih, containsStr_cons_space c t x p hc hx]
    · rw [List.dropWhile_cons_of_neg hc]

/-- Characterisation of `isClockedIn`. -/
theorem isClockedIn_eq (w : World) :
    isClockedIn w = containsStr (lastMeaningfulLine (lines (logContent w))) "IN".toList := by
  have h : isClockedIn w = (find (getLastLine w) "IN".toList).isSome := by
    unfold isClockedIn
    cases find (getLastLine w) "IN".toList <;> rfl
  rw [h, find_isSome_iff, getLastLine_eq]
  exact containsStr_dropWhile _ 'I' ['N'] (by decide)

theorem lastMeaningfulLine_all_blank (ls : List (List Char))
    (h : ∀ l ∈ ls, isBlank l = true) : lastMeaningfulLine ls = [] := by
  have : ls.filter (fun l => !isBlank l) = [] := by
    rw [List.filter_eq_nil_iff]
    intro l hl
    simp [h l hl]
  simp [lastMeaningfulLine, this]

theorem logContent_of_none (w : World) (h : w.fs (getClockerFileName w) = none) :
    logContent w = [] := by
  simp [logContent, h]

theorem logContent_of_some (w : World) (c : List Char)
    (h : w.fs (getClockerFileName w) = some c) : logContent w = c := by
  simp [logContent, h]

theorem isClockedIn_of_empty (w : World) (h : logContent w = []) : isClockedIn w = false := by
  rw [isClockedIn_eq, h]
  rfl

theorem isClockedIn_iff_substring (w : World) :
    isClockedIn w = true ↔ "IN".toList <:+: lastMeaningfulLine (lines (logContent w)) := by
  rw [isClockedIn_eq, containsStr_iff]

/-! ## Lines of a log after an append -/

theorem lines_snoc_line (c l : List Char) (h : ∀ x ∈ l, x ≠ '\n') :
    ∃ pre last, lines (c ++ l ++ ['\n']) = pre ++ [last ++ l] := by
  induction c with
  | nil =>
    refine ⟨[], [], ?_⟩
    have := lines_append_newline l [] h
    simpa [lines] using this
  | cons x c ih =>
    obtain ⟨pre, last, e⟩ := ih
    by_cases hx : x = '\n'
    · subst hx
      refine ⟨[] :: pre, last, ?_⟩
      simp only [List.cons_append, lines_cons_newline]
      rw [e]
    · simp only [List.cons_append]
      rw [lines_cons_of_ne x _ hx, e]
      cases pre with
      | nil => exact ⟨[], x :: last, rfl⟩
      | cons q qs => exact ⟨(x :: q) :: qs, last, rfl⟩

theorem lines_snoc_newline_ne_nil (a : List Char) : lines (a ++ ['\n']) ≠ [] := by
  obtain ⟨pre, last, e⟩ := lines_snoc_line a [] (by simp)
  rw [List.append_nil] at e
  rw [e]
  simp

theorem lines_append_of_terminated (a b : List Char) :
    lines (a ++ '\n' :: b) = lines (a ++ ['\n']) ++ lines b := by
  induction a with
  | nil => simp [lines]
  | cons x a ih =>
    by_cases hx : x = '\n'
    · subst hx
      simp only [List.cons_append, lines_cons_newline, ih]
    · simp only [List.cons_append]
      rw [lines_cons_of_ne x _ hx, lines_cons_of_ne x _ hx, ih]
      cases h : lines (a ++ ['\n']) with
      | nil => exact absurd h (lines_snoc_newline_ne_nil a)
      | cons q qs => rfl

theorem lastMeaningfulLine_snoc (pre : List (List Char)) (l : List Char)
    (h : isBlank l = false) : lastMeaningfulLine (pre ++ [l]) = l := by
  simp [lastMeaningfulLine, List.filter_append, h]

theorem isBlank_append_of_not (a l : List Char) (h : isBlank l = false) :
    isBlank (a ++ l) = false := by
  unfold isBlank at h ⊢
  rw [List.all_append, h, Bool.and_false]

/-- After a line with a visible character is appended to any text, it ends the
last non-blank line of the result. -/
theorem lastMeaningfulLine_after_append (c l : List Char) (h : ∀ x ∈ l, x ≠ '\n')
    (hb : isBlank l = false) :
    ∃ last, lastMeaningfulLine (lines (c ++ l ++ ['\n'])) = last ++ l := by
  obtain ⟨pre, last, e⟩ := lines_snoc_line c l h
  exact ⟨last, by rw [e, lastMeaningfulLine_snoc _ _ (isBlank_append_of_not last l hb)]⟩

/-- After a line with a visible character is appended to a text that ends with
a newline, it is the last non-blank line of the result. -/
theorem lastMeaningfulLine_after_terminated (c l : List Char) (h : ∀ x ∈ l, x ≠ '\n')
    (hb : isBlank l = false) :
    lastMeaningfulLine (lines (c ++ ['\n'] ++ l ++ ['\n'])) = l := by
  have e : c ++ ['\n'] ++ l ++ ['\n'] = c ++ '\n' :: (l ++ ['\n']) := by simp
  rw [e, lines_append_of_terminated]
  have e2 : lines (l ++ ['\n']) = [l] := by
    have := lines_append_newline l [] h
    simpa [lines] using this
  rw [e2, lastMeaningfulLine_snoc _ _ hb]

/-! ## Effect of the commands on the state -/

theorem getClockerFileName_def (w : World) : getClockerFileName w = fileNameOf w.env := rfl

theorem getClockerFileName_appended (w : World) (msg line : List Char) :
    getClockerFileName (appended w msg line) = getClockerFileName w := rfl

theorem logContent_appended (w : World) (msg line : List Char) :
    logContent (appended w msg line) = logContent w ++ line ++ ['\n'] := by
  simp [logContent, getClockerFileName_def, appended]

theorem appendOpens_cout_write (w : World) (text : List Char) :
    appendOpens (cout_write w text) (getClockerFileName (cout_write w text)) =
      appendOpens w (getClockerFileName w) := rfl

theorem appendOpens_appended (w : World) (msg line : List Char) :
    appendOpens (appended w msg line) (getClockerFileName (appended w msg line)) =
      appendOpens w (getClockerFileName w) := rfl

theorem logContent_notWritten (w : World) (msg : List Char) :
    logContent (notWritten w msg) = logContent w := rfl

theorem isClockedIn_notWritten (w : World) (msg : List Char) :
    isClockedIn (notWritten w msg) = isClockedIn w := rfl

/-- An accepted command whose open succeeds: the message goes to standard
output and the line to the end of the clocker file. -/
theorem accepted_of_open (w : World) (msg line : List Char)
    (hopen : appendOpens w (getClockerFileName w) = true) :
    fout_write (getClockerOutFile (cout_write w msg)).1 (getClockerOutFile (cout_write w msg)).2
      line = appended w msg line := by
  have hopen2 : appendOpens (cout_write w msg) (getClockerFileName (cout_write w msg)) = true :=
    hopen
  simp only [getClockerOutFile, hopen2, if_true]
  simp only [fout_write, if_true, cout_write, appended, logContent]
  congr 1
  funext q
  simp only [getClockerFileName_def]
  by_cases hq : q = fileNameOf w.env
  · simp [hq]
  · simp [hq]

/-- An accepted command whose open fails: the message goes to standard output
and nothing is written. -/
theorem accepted_of_closed (w : World) (msg line : List Char)
    (hopen : appendOpens w (getClockerFileName w) = false) :
    fout_write (getClockerOutFile (cout_write w msg)).1 (getClockerOutFile (cout_write w msg)).2
      line = notWritten w msg := by
  have hopen2 : appendOpens (cout_write w msg) (getClockerFileName (cout_write w msg)) = false :=
    hopen
  simp only [getClockerOutFile, hopen2, Bool.false_eq_true, if_false]
  rfl

theorem clockIn_of_out (w : World) (h : isClockedIn w = false)
    (hopen : appendOpens w (getClockerFileName w) = true) :
    clockIn w = appended w "clocking in".toList "clocking IN".toList := by
  unfold clockIn
  rw [h]
  exact accepted_of_open w _ _ hopen

theorem clockIn_of_out_closed (w : World) (h : isClockedIn w = false)
    (hopen : appendOpens w (getClockerFileName w) = false) :
    clockIn w = notWritten w "clocking in".toList := by
  unfold clockIn
  rw [h]
  exact accepted_of_closed w _ _ hopen

theorem clockIn_of_in (w : World) (h : isClockedIn w = true) :
    clockIn w = cerr_write w "ERROR: Already clocked in.".toList := by
  unfold clockIn
  rw [h]
  rfl

theorem clockOut_of_in (w : World) (h : isClockedIn w = true)
    (hopen : appendOpens w (getClockerFileName w) = true) :
    clockOut w = appended w "clocking out".toList "clocking OUT".toList := by
  unfold clockOut
  rw [h]
  exact accepted_of_open w _ _ hopen

theorem clockOut_of_in_closed (w : World) (h : isClockedIn w = true)
    (hopen : appendOpens w (getClockerFileName w) = false) :
    clockOut w = notWritten w "clocking out".toList := by
  unfold clockOut
  rw [h]
  exact accepted_of_closed w _ _ hopen

theorem clockOut_of_out (w : World) (h : isClockedIn w = false) :
    clockOut w = cerr_write w "ERROR: Not clocked in.".toList := by
  unfold clockOut
  rw [h]
  rfl

theorem isClockedIn_after_IN (w : World) (msg : List Char) :
    isClockedIn (appended w msg "clocking IN".toList) = true := by
  rw [isClockedIn_iff_substring, logContent_appended]
  obtain ⟨last, e⟩ := lastMeaningfulLine_after_append (logContent w) "clocking IN".toList
    (by decide) (by decide)
  rw [e]
  exact ⟨last ++ "clocking ".toList, [], by simp⟩

/-! ## Argument matching -/

theorem char_toNat_inj (a b : Char) (h : a.toNat = b.toNat) : a = b := by
  have ha := Char.ofNat_toNat a
  have hb := Char.ofNat_toNat b
  rw [← ha, ← hb, h]

/-- On a pattern without NUL, `strncmp` over the length of the pattern is zero
exactly when the argument starts with the pattern. -/
theorem strncmp_eq_zero_iff (p : List Char) (hp : ∀ c ∈ p, c.toNat ≠ 0) :
    ∀ a : List Char, strncmp a p p.length = 0 ↔ p <+: a := by
  induction p with
  | nil => intro a; simp [strncmp]
  | cons c p ih =>
    intro a
    have hc : c.toNat ≠ 0 := hp c (List.mem_cons_self _ _)
    have ih2 := ih (fun x hx => hp x (List.mem_cons_of_mem _ hx))
    cases a with
    | nil =>
      simp only [List.length_cons, strncmp, List.prefix_nil]
      constructor
      · intro h
        omega
      · intro h
        exact absurd h (List.cons_ne_nil _ _)
    | cons x a =>
      simp only [List.length_cons, strncmp, List.cons_prefix_cons]
      by_cases hxc : x = c
      · subst hxc
        simp [hc, ih2 a]
      · have hne : x.toNat ≠ c.toNat := fun h => hxc (char_toNat_inj _ _ h)
        have hcx : ¬ c = x := fun h => hxc h.symm
        simp only [hxc, hcx, if_false, false_and, iff_false]
        omega

theorem main_of_length_ne (argv : List (List Char)) (w : World) (h : argv.length ≠ 2) :
    main argv w = usage w := by
  unfold main
  rw [if_pos h]

/-- The dispatch of `main` on a single argument, with `strncmp` read as a
test that the argument starts with the pattern. -/
theorem main_single (p0 a : List Char) (w : World) :
    main [p0, a] w =
      if "-h".toList <+: a ∨ "--help".toList <+: a then usage w
      else if "in".toList <+: a then (clockIn w, 0)
      else if "out".toList <+: a then (clockOut w, 0)
      else if "report".toList <+: a then (report w, 0)
      else usage w := by
  have h1 : strncmp a "-h".toList 2 = 0 ↔ "-h".toList <+: a :=
    strncmp_eq_zero_iff "-h".toList (by decide) a
  have h2 : strncmp a "--help".toList 6 = 0 ↔ "--help".toList <+: a :=
    strncmp_eq_zero_iff "--help".toList (by decide) a
  have h3 : strncmp a "in".toList 2 = 0 ↔ "in".toList <+: a :=
    strncmp_eq_zero_iff "in".toList (by decide) a
  have h4 : strncmp a "out".toList 3 = 0 ↔ "out".toList <+: a :=
    strncmp_eq_zero_iff "out".toList (by decide) a
  have h5 : strncmp a "report".toList 6 = 0 ↔ "report".toList <+: a :=
    strncmp_eq_zero_iff "report".toList (by decide) a
  unfold main
  simp only [List.length_cons, List.length_nil, ne_eq, not_true_eq_false, if_false,
    List.getD_cons_succ, List.getD_cons_zero, Bool.or_eq_true, decide_eq_true_eq, h1, h2, h3,
    h4, h5]

theorem not_help_of_recognized (a : List Char) (h : recognized a) :
    ¬ ("-h".toList <+: a ∨ "--help".toList <+: a) := by
  cases a with
  | nil => simp
  | cons x t =>
    rcases h with h | h | h <;>
    · have hx : x ≠ '-' := by
        have := (List.cons_prefix_cons.mp h).1
        rw [← this]
        decide
      intro h2
      rcases h2 with h2 | h2 <;> exact hx (List.cons_prefix_cons.mp h2).1.symm

theorem first_char_of_starts (c x : Char) (p t : List Char) (h : (c :: p) <+: (x :: t)) :
    x = c := (List.cons_prefix_cons.mp h).1.symm

theorem main_of_in (p0 a : List Char) (w : World) (h : "in".toList <+: a) :
    main [p0, a] w = (clockIn w, 0) := by
  rw [main_single, if_neg (not_help_of_recognized a (Or.inl h)), if_pos h]

theorem main_of_out (p0 a : List Char) (w : World) (h : "out".toList <+: a) :
    main [p0, a] w = (clockOut w, 0) := by
  have hin : ¬ "in".toList <+: a := by
    intro h2
    cases a with
    | nil => simp at h
    | cons x t =>
      have e1 := first_char_of_starts _ _ _ _ h
      have e2 := first_char_of_starts _ _ _ _ h2
      rw [e1] at e2
      exact absurd e2 (by decide)
  rw [main_single, if_neg (not_help_of_recognized a (Or.inr (Or.inl h))), if_neg hin, if_pos h]

theorem main_of_report (p0 a : List Char) (w : World) (h : "report".toList <+: a) :
    main [p0, a] w = (report w, 0) := by
  have hin : ¬ "in".toList <+: a := by
    intro h2
    cases a with
    | nil => simp at h
    | cons x t =>
      have e1 := first_char_of_starts _ _ _ _ h
      have e2 := first_char_of_starts _ _ _ _ h2
      rw [e1] at e2
      exact absurd e2 (by decide)
  have hout : ¬ "out".toList <+: a := by
    intro h2
    cases a with
    | nil => simp at h
    | cons x t =>
      have e1 := first_char_of_starts _ _ _ _ h
      have e2 := first_char_of_starts _ _ _ _ h2
      rw [e1] at e2
      exact absurd e2 (by decide)
  rw [main_single, if_neg (not_help_of_recognized a (Or.inr (Or.inr h))), if_neg hin,
    if_neg hout, if_pos h]

theorem main_of_not_recognized (p0 a : List Char) (w : World) (h : ¬ recognized a) :
    main [p0, a] w = usage w := by
  unfold recognized at h
  simp only [not_or] at h
  rw [main_single, if_neg h.1, if_neg h.2.1, if_neg h.2.2]
  simp

theorem appendOnly_of_same (w w1 : World) (he : w1.env = w.env) (hf : w1.fs = w.fs) :
    appendOnly w w1 := by
  refine ⟨?_, ?_, Or.inl hf, ?_⟩
  · simp [getClockerFileName_def, he]
  · simp [logContent, getClockerFileName_def, he, hf]
  · intro q _
    rw [hf]

theorem appendOnly_appended (w : World) (msg line : List Char)
    (h : line = "clocking IN".toList ∨ line = "clocking OUT".toList) :
    appendOnly w (appended w msg line) := by
  refine ⟨rfl, ?_, ?_, ?_⟩
  · rw [logContent_appended, List.append_assoc]
    exact List.prefix_append _ _
  · rcases h with h | h
    · right; left
      subst h
      simp [appended]
    · right; right
      subst h
      simp [appended]
  · intro q hq
    simp [appended, hq]

theorem appendOnly_clockIn (w : World) : appendOnly w (clockIn w) := by
  cases h : isClockedIn w with
  | false =>
    cases hopen : appendOpens w (getClockerFileName w) with
    | true =>
      rw [clockIn_of_out w h hopen]
      exact appendOnly_appended w _ _ (Or.inl rfl)
    | false =>
      rw [clockIn_of_out_closed w h hopen]
      exact appendOnly_of_same w _ rfl rfl
  | true =>
    rw [clockIn_of_in w h]
    exact appendOnly_of_same w _ rfl rfl

theorem appendOnly_clockOut (w : World) : appendOnly w (clockOut w) := by
  cases h : isClockedIn w with
  | false =>
    rw [clockOut_of_out w h]
    exact appendOnly_of_same w _ rfl rfl
  | true =>
    cases hopen : appendOpens w (getClockerFileName w) with
    | true =>
      rw [clockOut_of_in w h hopen]
      exact appendOnly_appended w _ _ (Or.inr rfl)
    | false =>
      rw [clockOut_of_in_closed w h hopen]
      exact appendOnly_of_same w _ rfl rfl

theorem appendOnly_main (argv : List (List Char)) (w : World) :
    appendOnly w (main argv w).1 := by
  by_cases hl : argv.length = 2
  · obtain ⟨p0, a, rfl⟩ := List.length_eq_two.mp hl
    rw [main_single]
    split
    · exact appendOnly_of_same w _ rfl rfl
    · split
      · exact appendOnly_clockIn w
      · split
        · exact appendOnly_clockOut w
        · split
          · exact appendOnly_of_same w _ rfl rfl
          · exact appendOnly_of_same w _ rfl rfl
  · rw [main_of_length_ne argv w hl]
    exact appendOnly_of_same w _ rfl rfl

/-! ## Claims on state inference -/

/-- C1: `isClockedIn` is true exactly when the last line of the log that is not
empty and not whitespace-only contains the substring "IN" (an absent file
counting as empty); it is false for an absent log, an empty log, a log of blank
lines only, and a log whose last non-blank line has no "IN". -/
theorem C1_isClockedIn_iff_last_line_has_IN (w : World) :
    (isClockedIn w = true ↔ "IN".toList <:+: lastMeaningfulLine (lines (logContent w))) ∧
    (w.fs (getClockerFileName w) = none → isClockedIn w = false) ∧
    (w.fs (getClockerFileName w) = some [] → isClockedIn w = false) ∧
    ((∀ l ∈ lines (logContent w), isBlank l = true) → isClockedIn w = false) ∧
    (¬ "IN".toList <:+: lastMeaningfulLine (lines (logContent w)) → isClockedIn w = false) := by
  refine ⟨isClockedIn_iff_substring w, ?_, ?_, ?_, ?_⟩
  · intro h
    exact isClockedIn_of_empty w (logContent_of_none w h)
  · intro h
    exact isClockedIn_of_empty w (logContent_of_some w [] h)
  · intro h
    rw [isClockedIn_eq, lastMeaningfulLine_all_blank _ h]
    rfl
  · intro h
    rw [← isClockedIn_iff_substring] at h
    simpa using h

/-- C1 at concrete logs: "clocking IN" followed by blank lines is clocked in;
an absent log, and a log of white space only, are not. -/
theorem C1_witness :
    isClockedIn (mkWorld none (some "clocking IN\n\n  \n".toList)) = true ∧
    isClockedIn (mkWorld none none) = false ∧
    isClockedIn (mkWorld none (some " \n\t\n".toList)) = false :=
  ⟨(C1_isClockedIn_iff_last_line_has_IN
      (mkWorld none (some "clocking IN\n\n  \n".toList))).1.mpr
      ⟨"clocking ".toList, [], by decide⟩,
   (C1_isClockedIn_iff_last_line_has_IN (mkWorld none none)).2.1 (by decide),
   (C1_isClockedIn_iff_last_line_has_IN
      (mkWorld none (some " \n\t\n".toList))).2.2.2.1 (by decide)⟩

/-- C2 as stated fails: on the log "  IN\n" the last non-blank line is "  IN"
but `getLastLine` returns "IN", without the two leading spaces. -/
theorem C2_counterexample :
    lastMeaningfulLine (lines (logContent (mkWorld none (some "  IN\n".toList)))) = "  IN".toList ∧
    getLastLine (mkWorld none (some "  IN\n".toList)) = "IN".toList ∧
    getLastLine (mkWorld none (some "  IN\n".toList)) ≠
      lastMeaningfulLine (lines (logContent (mkWorld none (some "  IN\n".toList)))) := by
  decide

/-- C2 amended: `getLastLine` returns the last line that is not empty and not
whitespace-only with its leading white space removed (from its first visible
character to its end, trailing white space kept), whatever blank lines follow
it, and the empty string when there is no such line; it is that line character
for character when the line does not begin with white space. -/
theorem C2_getLastLine_last_nonblank_line_trimmed (w : World) :
    getLastLine w = (lastMeaningfulLine (lines (logContent w))).dropWhile isspace ∧
    ((∀ l ∈ lines (logContent w), isBlank l = true) → getLastLine w = []) ∧
    (∀ x t, lastMeaningfulLine (lines (logContent w)) = x :: t → isspace x = false →
      getLastLine w = x :: t) := by
  refine ⟨getLastLine_eq w, ?_, ?_⟩
  · intro h
    rw [getLastLine_eq, lastMeaningfulLine_all_blank _ h]
    rfl
  · intro x t h hx
    rw [getLastLine_eq, h]
    simp [List.dropWhile_cons, hx]

/-- C2 at the spec's example: for the lines "...IN", "", "  " the result is
"...IN". -/
theorem C2_witness :
    lines (logContent (mkWorld none (some "...IN\n\n  ".toList))) =
      ["...IN".toList, [], "  ".toList] ∧
    getLastLine (mkWorld none (some "...IN\n\n  ".toList)) = "...IN".toList :=
  ⟨by decide,
   (C2_getLastLine_last_nonblank_line_trimmed
      (mkWorld none (some "...IN\n\n  ".toList))).2.2 '.' "..IN".toList (by decide) (by decide)⟩

/-- C3 as stated fails: the last non-blank line of the log "IN OUT\n" contains
the clock-out marker "OUT", yet `isClockedIn` returns true. -/
theorem C3_counterexample :
    ¬ ("OUT".toList <:+: lastMeaningfulLine (lines (logContent
          (mkWorld none (some "IN OUT\n".toList)))) →
        isClockedIn (mkWorld none (some "IN OUT\n".toList)) = false) := by
  intro h
  exact absurd (h ⟨"IN ".toList, [], by decide⟩) (by decide)

/-- C3 amended: when the last non-blank line contains "IN", `isClockedIn` is
true; when the log is empty or absent, or its last non-blank line contains "OUT"
and does not contain "IN" (as the line "clocking OUT" that clock-out writes),
`isClockedIn` is false. -/
theorem C3_isClockedIn_by_marker (w : World) :
    ("IN".toList <:+: lastMeaningfulLine (lines (logContent w)) → isClockedIn w = true) ∧
    (logContent w = [] → isClockedIn w = false) ∧
    ("OUT".toList <:+: lastMeaningfulLine (lines (logContent w)) →
      ¬ "IN".toList <:+: lastMeaningfulLine (lines (logContent w)) → isClockedIn w = false) ∧
    (lastMeaningfulLine (lines (logContent w)) = "clocking OUT".toList →
      isClockedIn w = false) := by
  refine ⟨(isClockedIn_iff_substring w).mpr, isClockedIn_of_empty w, ?_, ?_⟩
  · intro _ h
    rw [← isClockedIn_iff_substring] at h
    simpa using h
  · intro h
    rw [isClockedIn_eq, h]
    decide

/-- C3 at concrete logs: ending in "clocking IN" gives true, ending in
"clocking OUT" gives false. -/
theorem C3_witness :
    isClockedIn (mkWorld none (some "clocking IN\n".toList)) = true ∧
    isClockedIn (mkWorld none (some "clocking IN\nclocking OUT\n".toList)) = false :=
  ⟨(C3_isClockedIn_by_marker (mkWorld none (some "clocking IN\n".toList))).1
      ⟨"clocking ".toList, [], by decide⟩,
   (C3_isClockedIn_by_marker
      (mkWorld none (some "clocking IN\nclocking OUT\n".toList))).2.2.1
      ⟨"clocking ".toList, [], by decide⟩ (by decide)⟩

/-! ## Claims on the commands -/

/-- C4: a command whose precondition fails does not change any file and is not
fatal: when `isClockedIn` is false, `clocker out` leaves every file as it was
(an absent file stays absent), writes "ERROR: Not clocked in." to standard error
and exits with status 0; when `isClockedIn` is true, `clocker in` leaves every
file as it was, writes "ERROR: Already clocked in." and exits with status 0. -/
theorem C4_rejected_command_keeps_log (p0 : List Char) (w : World) :
    (isClockedIn w = false →
      (main [p0, "out".toList] w).1 = clockOut w ∧ (main [p0, "out".toList] w).2 = 0 ∧
      (clockOut w).fs = w.fs ∧ (clockOut w).env = w.env ∧ (clockOut w).out = w.out ∧
      (clockOut w).err = w.err ++ "ERROR: Not clocked in.\n".toList) ∧
    (isClockedIn w = true →
      (main [p0, "in".toList] w).1 = clockIn w ∧ (main [p0, "in".toList] w).2 = 0 ∧
      (clockIn w).fs = w.fs ∧ (clockIn w).env = w.env ∧ (clockIn w).out = w.out ∧
      (clockIn w).err = w.err ++ "ERROR: Already clocked in.\n".toList) := by
  constructor
  · intro h
    have hm : main [p0, "out".toList] w = (clockOut w, 0) := by
      rw [main_single, if_neg (by decide), if_neg (by decide), if_pos (by decide)]
    rw [hm, clockOut_of_out w h]
    simp [cerr_write]
  · intro h
    have hm : main [p0, "in".toList] w = (clockIn w, 0) := by
      rw [main_single, if_neg (by decide), if_pos (by decide)]
    rw [hm, clockIn_of_in w h]
    simp [cerr_write]

/-- C4 at concrete logs: `clocker out` on an absent log leaves it absent, and
`clocker in` on a log of one "clocking IN" line leaves that one line. -/
theorem C4_witness :
    ((main ["clocker".toList, "out".toList] (mkWorld none none)).2 = 0 ∧
      (clockOut (mkWorld none none)).fs ".clocker".toList = none) ∧
    ((main ["clocker".toList, "in".toList] (mkWorld none (some "clocking IN\n".toList))).2 = 0 ∧
      (clockIn (mkWorld none (some "clocking IN\n".toList))).fs ".clocker".toList =
        some "clocking IN\n".toList) :=
  ⟨⟨((C4_rejected_command_keeps_log "clocker".toList (mkWorld none none)).1 (by decide)).2.1,
    by rw [((C4_rejected_command_keeps_log "clocker".toList (mkWorld none none)).1
         (by decide)).2.2.1]; rfl⟩,
   ⟨((C4_rejected_command_keeps_log "clocker".toList
        (mkWorld none (some "clocking IN\n".toList))).2 (by decide)).2.1,
    by rw [((C4_rejected_command_keeps_log "clocker".toList
         (mkWorld none (some "clocking IN\n".toList))).2 (by decide)).2.2.1]; rfl⟩⟩

/-- C5 as stated fails when the log cannot be opened for appending: with
`CLOCKER_FILE` set to the empty string the log is absent and `isClockedIn` is
false, the first clock-in prints its confirmation but appends nothing, and the
second clock-in is not rejected: nothing goes to standard error and the
confirmation is printed a second time. -/
theorem C5_counterexample :
    isClockedIn (mkWorld (some []) none) = false ∧
    (clockIn (mkWorld (some []) none)).fs (getClockerFileName (mkWorld (some []) none)) ≠
      some (logContent (mkWorld (some []) none) ++ "clocking IN\n".toList) ∧
    (clockIn (mkWorld (some []) none)).fs [] = none ∧
    isClockedIn (clockIn (mkWorld (some []) none)) = false ∧
    (clockIn (clockIn (mkWorld (some []) none))).err = [] ∧
    (clockIn (clockIn (mkWorld (some []) none))).out = "clocking in\nclocking in\n".toList := by
  decide

/-- C5 amended: from a log on which `isClockedIn` is false and which can be
opened for appending, the first clock-in appends "clocking IN" and a newline to
the log and makes `isClockedIn` true; the second clock-in is rejected with
"ERROR: Already clocked in." and changes no file, so the log after two calls is
the log after one: the old content and exactly one more line. -/
theorem C5_clockIn_twice_appends_once (w : World) (h : isClockedIn w = false)
    (hopen : appendOpens w (getClockerFileName w) = true) :
    (clockIn w).fs (getClockerFileName w) = some (logContent w ++ "clocking IN\n".toList) ∧
    isClockedIn (clockIn w) = true ∧
    (clockIn (clockIn w)).fs = (clockIn w).fs ∧
    (clockIn (clockIn w)).err = (clockIn w).err ++ "ERROR: Already clocked in.\n".toList ∧
    logContent (clockIn (clockIn w)) = logContent (clockIn w) ∧
    logContent (clockIn (clockIn w)) = logContent w ++ "clocking IN\n".toList := by
  have h1 := clockIn_of_out w h hopen
  have h2 : isClockedIn (clockIn w) = true := by
    rw [h1]
    exact isClockedIn_after_IN w _
  have h3 := clockIn_of_in (clockIn w) h2
  have h4 : logContent (clockIn (clockIn w)) = logContent (clockIn w) := by
    rw [h3]
    rfl
  have h5 : logContent (clockIn w) = logContent w ++ "clocking IN\n".toList := by
    rw [h1, logContent_appended]
    simp
  refine ⟨?_, h2, ?_, ?_, h4, ?_⟩
  · rw [h1]
    simp [appended]
  · rw [h3]
    rfl
  · rw [h3]
    simp [cerr_write]
  · rw [h4, h5]

/-- C5 on an absent log at ".clocker": after two clock-ins the log is the
single line "clocking IN". -/
theorem C5_witness :
    isClockedIn (mkWorld none none) = false ∧
    appendOpens (mkWorld none none) (getClockerFileName (mkWorld none none)) = true ∧
    logContent (clockIn (clockIn (mkWorld none none))) = "clocking IN\n".toList :=
  ⟨by decide, by decide,
   (C5_clockIn_twice_appends_once (mkWorld none none) (by decide) (by decide)).2.2.2.2.2⟩

/-- C6 as stated fails when the log cannot be opened for appending: with
`CLOCKER_FILE` set to the empty string `isClockedIn` is false, the clock-in
appends nothing, and the clock-out that follows does not succeed: it prints
"ERROR: Not clocked in." and there is still no log. -/
theorem C6_counterexample :
    isClockedIn (mkWorld (some []) none) = false ∧
    (clockOut (clockIn (mkWorld (some []) none))).err = "ERROR: Not clocked in.\n".toList ∧
    (clockOut (clockIn (mkWorld (some []) none))).fs [] = none ∧
    logContent (clockOut (clockIn (mkWorld (some []) none))) ≠
      logContent (mkWorld (some []) none) ++ "clocking IN\nclocking OUT\n".toList := by
  decide

/-- C6 amended: from a log on which `isClockedIn` is false and which can be
opened for appending, clock-in then clock-out both succeed (the clock-in makes
`isClockedIn` true, nothing goes to standard error, both confirmations are
printed), the log becomes the old content followed by the lines "clocking IN"
and "clocking OUT", and `isClockedIn` is false again; from an empty or absent
log the result has exactly these two lines. -/
theorem C6_clockIn_clockOut_round_trip (w : World) (h : isClockedIn w = false)
    (hopen : appendOpens w (getClockerFileName w) = true) :
    isClockedIn (clockIn w) = true ∧
    (clockOut (clockIn w)).fs (getClockerFileName w) =
      some (logContent w ++ "clocking IN\nclocking OUT\n".toList) ∧
    logContent (clockOut (clockIn w)) = logContent w ++ "clocking IN\nclocking OUT\n".toList ∧
    (clockOut (clockIn w)).err = w.err ∧
    (clockOut (clockIn w)).out = w.out ++ "clocking in\nclocking out\n".toList ∧
    isClockedIn (clockOut (clockIn w)) = false ∧
    (logContent w = [] →
      lines (logContent (clockOut (clockIn w))) = ["clocking IN".toList, "clocking OUT".toList] ∧
      (lines (logContent (clockOut (clockIn w)))).length = 2) := by
  have h1 := clockIn_of_out w h hopen
  have h2 : isClockedIn (clockIn w) = true := by
    rw [h1]
    exact isClockedIn_after_IN w _
  have hopen2 : appendOpens (clockIn w) (getClockerFileName (clockIn w)) = true := by
    rw [h1, appendOpens_appended]
    exact hopen
  have h3 := clockOut_of_in (clockIn w) h2 hopen2
  have h4 : logContent (clockOut (clockIn w)) =
      logContent w ++ "clocking IN\nclocking OUT\n".toList := by
    rw [h3, logContent_appended, h1, logContent_appended]
    simp
  have h5 : isClockedIn (clockOut (clockIn w)) = false := by
    rw [isClockedIn_eq, h3, h1, logContent_appended, logContent_appended,
      lastMeaningfulLine_after_terminated _ _ (by decide) (by decide)]
    decide
  refine ⟨h2, ?_, h4, ?_, ?_, h5, ?_⟩
  · rw [h3, h1]
    simp [appended, getClockerFileName_def, logContent]
  · rw [h3, h1]
    rfl
  · rw [h3, h1]
    simp [appended]
  · intro he
    rw [h4, he]
    decide

/-- C6 on an absent log at ".clocker": the round trip leaves the two lines
"clocking IN" and "clocking OUT", and the state is clocked out. -/
theorem C6_witness :
    isClockedIn (mkWorld none none) = false ∧
    appendOpens (mkWorld none none) (getClockerFileName (mkWorld none none)) = true ∧
    logContent (clockOut (clockIn (mkWorld none none))) =
      [] ++ "clocking IN\nclocking OUT\n".toList ∧
    isClockedIn (clockOut (clockIn (mkWorld none none))) = false :=
  ⟨by decide, by decide,
   (C6_clockIn_clockOut_round_trip (mkWorld none none) (by decide) (by decide)).2.2.1,
   (C6_clockIn_clockOut_round_trip (mkWorld none none) (by decide) (by decide)).2.2.2.2.2.1⟩

/-- C7: the log is append-only.  For every argument vector and every prior
state, after the run the clocker file is still the same file, the prior content
is an initial segment of the content afterwards, the files are either all
unchanged or the clocker file holds the prior content followed by exactly one
line, "clocking IN" or "clocking OUT", ended by a newline, and no other file
changes. -/
theorem C7_log_is_append_only (argv : List (List Char)) (w : World) :
    getClockerFileName (main argv w).1 = getClockerFileName w ∧
    logContent w <+: logContent (main argv w).1 ∧
    ((main argv w).1.fs = w.fs ∨
      (main argv w).1.fs (getClockerFileName w) =
        some (logContent w ++ "clocking IN\n".toList) ∨
      (main argv w).1.fs (getClockerFileName w) =
        some (logContent w ++ "clocking OUT\n".toList)) ∧
    (∀ q, q ≠ getClockerFileName w → (main argv w).1.fs q = w.fs q) :=
  appendOnly_main argv w

/-- C8 as stated fails: with `CLOCKER_FILE` set to the empty string,
`getClockerFileName` returns the empty string, not ".clocker". -/
theorem C8_counterexample :
    (mkWorld (some []) none).env = some [] ∧
    getClockerFileName (mkWorld (some []) none) = [] ∧
    getClockerFileName (mkWorld (some []) none) ≠ ".clocker".toList := by
  decide

/-- C8 amended: `getClockerFileName` returns the value of `CLOCKER_FILE`
whenever the variable is set, the empty string included, and ".clocker" when
it is unset. -/
theorem C8_getClockerFileName_env_or_default (w : World) :
    (∀ pPath, w.env = some pPath → getClockerFileName w = pPath) ∧
    (w.env = none → getClockerFileName w = ".clocker".toList) := by
  constructor
  · intro pPath h
    simp [getClockerFileName, h]
  · intro h
    simp [getClockerFileName, h]

/-- C8 at concrete environments: "/tmp/x.log" when set to it, ".clocker" when
unset. -/
theorem C8_witness :
    getClockerFileName (mkWorld (some "/tmp/x.log".toList) none) = "/tmp/x.log".toList ∧
    getClockerFileName (mkWorld none none) = ".clocker".toList :=
  ⟨(C8_getClockerFileName_env_or_default (mkWorld (some "/tmp/x.log".toList) none)).1
      "/tmp/x.log".toList rfl,
   (C8_getClockerFileName_env_or_default (mkWorld none none)).2 rfl⟩

/-- C9: for every argument vector the exit status is non-zero exactly when the
number of positional arguments is not one, or the single argument is "-h" or
"--help", or it is not a recognized command; then the status is 1, the usage
text has gone to standard error and no file has changed.  In every other case
(one argument that starts with "in", "out" or "report") the status is 0. -/
theorem C9_exit_status (argv : List (List Char)) (w : World) :
    ((main argv w).2 ≠ 0 ↔
      (argv.tail.length ≠ 1 ∨
        ∃ a, argv.tail = [a] ∧ (a = "-h".toList ∨ a = "--help".toList ∨ ¬ recognized a))) ∧
    ((main argv w).2 ≠ 0 →
      (main argv w).2 = 1 ∧ (main argv w).1.err = w.err ++ usageText ∧
      (main argv w).1.fs = w.fs ∧ (main argv w).1.out = w.out ∧ (main argv w).1.env = w.env) ∧
    (∀ a, argv.tail = [a] → recognized a → (main argv w).2 = 0) := by
  by_cases hl : argv.length = 2
  · obtain ⟨p0, a, rfl⟩ := List.length_eq_two.mp hl
    by_cases hr : recognized a
    · have h0 : (main [p0, a] w).2 = 0 := by
        rcases hr with h | h | h
        · rw [main_of_in p0 a w h]
        · rw [main_of_out p0 a w h]
        · rw [main_of_report p0 a w h]
      refine ⟨?_, ?_, ?_⟩
      · rw [h0]
        simp only [ne_eq, not_true_eq_false, List.tail_cons, List.length_singleton,
          List.cons.injEq, and_true, false_or, false_iff, not_exists, not_and]
        intro b hb
        subst hb
        intro hh
        rcases hh with hh | hh | hh
        · subst hh
          revert hr
          decide
        · subst hh
          revert hr
          decide
        · exact hh hr
      · intro hne
        exact absurd h0 hne
      · intro _ _ _
        exact h0
    · rw [main_of_not_recognized p0 a w hr]
      refine ⟨?_, ?_, ?_⟩
      · simp only [usage, ne_eq, one_ne_zero, not_false_eq_true, List.tail_cons,
          List.length_singleton, not_true_eq_false, false_or, true_iff]
        exact ⟨a, rfl, Or.inr (Or.inr hr)⟩
      · intro _
        simp [usage]
      · intro b hb hrb
        simp only [List.tail_cons, List.cons.injEq, and_true] at hb
        subst hb
        exact absurd hrb hr
  · rw [main_of_length_ne argv w hl]
    have ht : argv.tail.length ≠ 1 := by
      rw [List.length_tail]
      omega
    refine ⟨?_, ?_, ?_⟩
    · simp only [usage, ne_eq, one_ne_zero, not_false_eq_true, true_iff]
      exact Or.inl ht
    · intro _
      simp [usage]
    · intro b hb _
      rw [hb] at ht
      exact absurd rfl ht

/-- C9 at concrete argument vectors: no argument and "--help" exit with 1, a
rejected "out" on an absent log exits with 0. -/
theorem C9_witness :
    (main ["clocker".toList] (mkWorld none none)).2 = 1 ∧
    (main ["clocker".toList, "--help".toList] (mkWorld none none)).2 = 1 ∧
    (main ["clocker".toList, "out".toList] (mkWorld none none)).2 = 0 :=
  ⟨((C9_exit_status ["clocker".toList] (mkWorld none none)).2.1 (by decide)).1,
   ((C9_exit_status ["clocker".toList, "--help".toList] (mkWorld none none)).2.1
      (by decide)).1,
   (C9_exit_status ["clocker".toList, "out".toList] (mkWorld none none)).2.2
      "out".toList rfl (by decide)⟩

/-- C10: command matching is by initial segment.  A single argument that
starts with "in" runs `clockIn`, one that starts with "out" runs `clockOut`,
one that starts with "report" runs `report`, each ending with status 0; an
argument that starts with none of the three runs no handler: the run is that
of `usage`. -/
theorem C10_dispatch_by_initial_segment (p0 a : List Char) (w : World) :
    ("in".toList <+: a → main [p0, a] w = (clockIn w, 0)) ∧
    ("out".toList <+: a → main [p0, a] w = (clockOut w, 0)) ∧
    ("report".toList <+: a → main [p0, a] w = (report w, 0)) ∧
    (¬ "in".toList <+: a → ¬ "out".toList <+: a → ¬ "report".toList <+: a →
      main [p0, a] w = usage w) := by
  refine ⟨main_of_in p0 a w, main_of_out p0 a w, main_of_report p0 a w, ?_⟩
  intro h1 h2 h3
  apply main_of_not_recognized
  intro h
  rcases h with h | h | h
  · exact h1 h
  · exact h2 h
  · exact h3 h

/-- C10 at the spec's examples: "input", "outside" and "reporting" are taken as
in, out and report, while "stop" only prints the usage. -/
theorem C10_witness :
    main ["clocker".toList, "input".toList] (mkWorld none none) =
      (clockIn (mkWorld none none), 0) ∧
    main ["clocker".toList, "outside".toList] (mkWorld none none) =
      (clockOut (mkWorld none none), 0) ∧
    main ["clocker".toList, "reporting".toList] (mkWorld none none) =
      (report (mkWorld none none), 0) ∧
    main ["clocker".toList, "stop".toList] (mkWorld none none) = usage (mkWorld none none) :=
  ⟨(C10_dispatch_by_initial_segment "clocker".toList "input".toList (mkWorld none none)).1
      (by decide),
   (C10_dispatch_by_initial_segment "clocker".toList "outside".toList (mkWorld none none)).2.1
      (by decide),
   (C10_dispatch_by_initial_segment "clocker".toList "reporting".toList
      (mkWorld none none)).2.2.1 (by decide),
   (C10_dispatch_by_initial_segment "clocker".toList "stop".toList (mkWorld none none)).2.2.2
      (by decide) (by decide) (by decide)⟩

/-! ## The unterminated end of a log -/

theorem lastFragment_no_newline (c : List Char) : ∀ x ∈ lastFragment c, x ≠ '\n' := by
  intro x hx
  unfold lastFragment at hx
  rw [List.mem_reverse] at hx
  exact (split_at_newline c.reverse).1 x hx

theorem lastFragment_split (c : List Char) :
    c = lastFragment c ∨ ∃ a, c = a ++ '\n' :: lastFragment c := by
  unfold lastFragment
  cases h : c.reverse.dropWhile (fun x => x != '\n') with
  | nil =>
    left
    rw [(split_at_newline c.reverse).2.1 h, List.reverse_reverse]
  | cons d rest =>
    right
    refine ⟨rest.reverse, ?_⟩
    have e := (split_at_newline c.reverse).2.2 d rest h
    have e2 := congrArg List.reverse e
    rw [List.reverse_reverse] at e2
    conv_lhs => rw [e2]
    simp

theorem lastFragment_of_terminated (a : List Char) : lastFragment (a ++ ['\n']) = [] := by
  simp [lastFragment]

/-- After a line with a visible character is appended to a log, the last
non-blank line is that line glued to the unterminated end of the old log. -/
theorem lastMeaningfulLine_after_append_exact (c l : List Char) (h : ∀ x ∈ l, x ≠ '\n')
    (hb : isBlank l = false) :
    lastMeaningfulLine (lines (c ++ l ++ ['\n'])) = lastFragment c ++ l := by
  have hfl : ∀ x ∈ lastFragment c ++ l, x ≠ '\n' := by
    intro x hx
    rcases List.mem_append.mp hx with hx | hx
    · exact lastFragment_no_newline c x hx
    · exact h x hx
  have hline : lines (lastFragment c ++ l ++ ['\n']) = [lastFragment c ++ l] := by
    have := lines_append_newline (lastFragment c ++ l) [] hfl
    simpa [lines] using this
  have hnb := isBlank_append_of_not (lastFragment c) l hb
  rcases lastFragment_split c with e | ⟨a, e⟩
  · conv_lhs => rw [e]
    rw [hline]
    exact lastMeaningfulLine_snoc [] _ hnb
  · have e3 : c ++ l ++ ['\n'] = a ++ '\n' :: (lastFragment c ++ l ++ ['\n']) := by
      conv_lhs => rw [e]
      simp
    rw [e3, lines_append_of_terminated, hline]
    exact lastMeaningfulLine_snoc _ _ hnb

/-- An occurrence of "IN" in `f ++ s` lies in `f` or in `s` when `s` does not
begin with 'N'. -/
theorem containsStr_append_IN (f s : List Char) (hs : s.head? ≠ some 'N') :
    containsStr (f ++ s) "IN".toList = (containsStr f "IN".toList || containsStr s "IN".toList) := by
  induction f with
  | nil =>
    have hnil : containsStr [] "IN".toList = false := rfl
    rw [List.nil_append, hnil, Bool.false_or]
  | cons x f ih =>
    have hpre : "IN".toList.isPrefixOf (x :: (f ++ s)) = "IN".toList.isPrefixOf (x :: f) := by
      cases f with
      | nil =>
        cases s with
        | nil => rfl
        | cons y t =>
          have hy : ¬ 'N' = y := by
            intro hh
            apply hs
            rw [← hh]
            rfl
          simp [List.isPrefixOf, hy]
      | cons y f2 => simp [List.isPrefixOf]
    have hcons : ∀ (y : Char) (t pat : List Char),
        containsStr (y :: t) pat = (pat.isPrefixOf (y :: t) || containsStr t pat) := by
      intro y t pat
      rfl
    rw [List.cons_append, hcons, hcons, hpre, ih, Bool.or_assoc]

theorem isClockedIn_after_OUT_iff (w : World) (msg : List Char) :
    isClockedIn (appended w msg "clocking OUT".toList) =
      containsStr (lastFragment (logContent w)) "IN".toList := by
  rw [isClockedIn_eq, logContent_appended,
    lastMeaningfulLine_after_append_exact _ _ (by decide) (by decide),
    containsStr_append_IN _ _ (by decide)]
  have : containsStr "clocking OUT".toList "IN".toList = false := by decide
  rw [this, Bool.or_false]

/-! ## Claims on the log override and on sequences of commands -/

/-- C11 as stated fails at two paths.  With `CLOCKER_FILE` set to the empty
string, nothing can be opened: `clocker in` prints its confirmation and leaves
no log at that path.  With `CLOCKER_FILE` set to ".clocker" and no file there,
`clocker in` creates the default file ".clocker", so that file is touched. -/
theorem C11_counterexample :
    ((mkWorld (some []) none).env = some [] ∧
      (mkWorld (some []) none).fs [] = none ∧
      (main ["clocker".toList, "in".toList] (mkWorld (some []) none)).1.out =
        "clocking in\n".toList ∧
      (main ["clocker".toList, "in".toList] (mkWorld (some []) none)).1.fs [] = none) ∧
    ((mkWorld (some ".clocker".toList) none).env = some ".clocker".toList ∧
      (mkWorld (some ".clocker".toList) none).fs ".clocker".toList = none ∧
      (main ["clocker".toList, "in".toList] (mkWorld (some ".clocker".toList) none)).1.fs
          ".clocker".toList = some "clocking IN\n".toList ∧
      (main ["clocker".toList, "in".toList] (mkWorld (some ".clocker".toList) none)).1.fs
          ".clocker".toList ≠ (mkWorld (some ".clocker".toList) none).fs ".clocker".toList) := by
  decide

/-- C11 amended: for every path `p` that can be opened for appending,
`clocker in` run with `CLOCKER_FILE` set to `p` while there is no file at `p`
(or an empty one) exits with status 0 and leaves at `p` the text "clocking IN"
and a newline: a log of exactly one line, which contains "IN".  Unless `p` is
".clocker" itself, the run does not open the default path ".clocker" for
writing. -/
theorem C11_clockIn_creates_override_log (p0 p : List Char) (w : World)
    (henv : w.env = some p) (hfile : w.fs p = none ∨ w.fs p = some [])
    (hopen : appendOpens w p = true) :
    (main [p0, "in".toList] w).2 = 0 ∧
    (main [p0, "in".toList] w).1.fs p = some "clocking IN\n".toList ∧
    lines (logContent (main [p0, "in".toList] w).1) = ["clocking IN".toList] ∧
    (lines (logContent (main [p0, "in".toList] w).1)).length = 1 ∧
    (∀ l ∈ lines (logContent (main [p0, "in".toList] w).1), "IN".toList <:+: l) ∧
    (p ≠ ".clocker".toList → ".clocker".toList ∉ w.opens →
      ".clocker".toList ∉ (main [p0, "in".toList] w).1.opens) := by
  have hname : getClockerFileName w = p := by simp [getClockerFileName, henv]
  have hlog : logContent w = [] := by
    rcases hfile with h | h <;> simp [logContent, hname, h]
  have hout : isClockedIn w = false := isClockedIn_of_empty w hlog
  have hm : main [p0, "in".toList] w = (clockIn w, 0) :=
    main_of_in p0 "in".toList w (by decide)
  have hc := clockIn_of_out w hout (by rw [hname]; exact hopen)
  have hfs : (clockIn w).fs p = some "clocking IN\n".toList := by
    rw [hc]
    simp [appended, hname, hlog]
  have hlc : logContent (clockIn w) = "clocking IN\n".toList := by
    rw [hc, logContent_appended, hlog]
    rfl
  have hlines : lines (logContent (clockIn w)) = ["clocking IN".toList] := by
    rw [hlc]
    decide
  have hopens : (clockIn w).opens = w.opens ++ [p] := by
    rw [hc]
    simp [appended, hname]
  rw [hm]
  refine ⟨rfl, hfs, hlines, ?_, ?_, ?_⟩
  · simp [hlines]
  · intro l hl
    simp only [hlines, List.mem_singleton] at hl
    rw [hl]
    exact ⟨"clocking ".toList, [], by decide⟩
  · intro hp hw hmem
    simp only [hopens, List.mem_append, List.mem_singleton] at hmem
    rcases hmem with hmem | hmem
    · exact hw hmem
    · exact hp hmem.symm

/-- C11 at the spec's scenario: `CLOCKER_FILE=/tmp/x.log clocker in` creates
"/tmp/x.log" with the line "clocking IN" and does not open ".clocker". -/
theorem C11_witness :
    appendOpens (mkWorld (some "/tmp/x.log".toList) none) "/tmp/x.log".toList = true ∧
    (main ["clocker".toList, "in".toList] (mkWorld (some "/tmp/x.log".toList) none)).1.fs
        "/tmp/x.log".toList = some "clocking IN\n".toList ∧
    ".clocker".toList ∉
      (main ["clocker".toList, "in".toList] (mkWorld (some "/tmp/x.log".toList) none)).1.opens :=
  ⟨by decide,
   (C11_clockIn_creates_override_log "clocker".toList "/tmp/x.log".toList
      (mkWorld (some "/tmp/x.log".toList) none) rfl (Or.inl (by decide)) (by decide)).2.1,
   (C11_clockIn_creates_override_log "clocker".toList "/tmp/x.log".toList
      (mkWorld (some "/tmp/x.log".toList) none) rfl (Or.inl (by decide))
      (by decide)).2.2.2.2.2 (by decide) (by decide)⟩

/-- C12 as stated fails in two ways.  On a log without a final newline such as
"clocking IN", `isClockedIn` is true, clock-out is accepted and the log becomes
"clocking INclocking OUT" and a newline, on which `isClockedIn` is still true;
a second clock-out is accepted too, so two lines are appended.  And when the log
cannot be opened for appending (`CLOCKER_FILE` set to the empty string),
`isClockedIn` is false and stays false after an accepted clock-in. -/
theorem C12_counterexample :
    (isClockedIn (mkWorld none (some "clocking IN".toList)) = true ∧
      logContent (clockOut (mkWorld none (some "clocking IN".toList))) =
        "clocking INclocking OUT\n".toList ∧
      isClockedIn (clockOut (mkWorld none (some "clocking IN".toList))) ≠ false ∧
      logContent (clockOut (clockOut (mkWorld none (some "clocking IN".toList)))) =
        "clocking INclocking OUT\nclocking OUT\n".toList) ∧
    (isClockedIn (mkWorld (some []) none) = false ∧
      (clockIn (mkWorld (some []) none)).out = "clocking in\n".toList ∧
      isClockedIn (clockIn (mkWorld (some []) none)) ≠ true) := by
  decide

/-- C12 amended: when the log can be opened for appending, clock-in toggles the
inferred state for every log content whatsoever: if `isClockedIn` is false, it
is true after clock-in.  When moreover `isClockedIn` is true, it is false after
clock-out exactly when the text after the last newline of the log contains no
"IN", and then clock-out twice in a row appends exactly one line; this is the
case of every log that ends with a newline. -/
theorem C12_accepted_command_toggles (w : World)
    (hopen : appendOpens w (getClockerFileName w) = true) :
    (isClockedIn w = false → isClockedIn (clockIn w) = true) ∧
    (isClockedIn w = true →
      (isClockedIn (clockOut w) = false ↔
        ¬ "IN".toList <:+: lastFragment (logContent w)) ∧
      (¬ "IN".toList <:+: lastFragment (logContent w) →
        logContent (clockOut w) = logContent w ++ "clocking OUT\n".toList ∧
        (clockOut (clockOut w)).fs = (clockOut w).fs ∧
        logContent (clockOut (clockOut w)) = logContent w ++ "clocking OUT\n".toList)) ∧
    (isClockedIn w = true → (∃ a, logContent w = a ++ ['\n']) →
      isClockedIn (clockOut w) = false ∧
      logContent (clockOut (clockOut w)) = logContent w ++ "clocking OUT\n".toList) := by
  have key : isClockedIn w = true →
      (isClockedIn (clockOut w) = false ↔
        ¬ "IN".toList <:+: lastFragment (logContent w)) ∧
      (¬ "IN".toList <:+: lastFragment (logContent w) →
        logContent (clockOut w) = logContent w ++ "clocking OUT\n".toList ∧
        (clockOut (clockOut w)).fs = (clockOut w).fs ∧
        logContent (clockOut (clockOut w)) = logContent w ++ "clocking OUT\n".toList) := by
    intro h
    have h1 := clockOut_of_in w h hopen
    have hiff : isClockedIn (clockOut w) = false ↔
        ¬ "IN".toList <:+: lastFragment (logContent w) := by
      rw [h1, isClockedIn_after_OUT_iff, ← containsStr_iff]
      simp
    refine ⟨hiff, ?_⟩
    intro hno
    have h2 : isClockedIn (clockOut w) = false := hiff.mpr hno
    have h3 := clockOut_of_out (clockOut w) h2
    have h4 : logContent (clockOut w) = logContent w ++ "clocking OUT\n".toList := by
      rw [h1, logContent_appended]
      simp
    have h5 : logContent (clockOut (clockOut w)) = logContent (clockOut w) := by
      rw [h3]
      rfl
    refine ⟨h4, ?_, ?_⟩
    · rw [h3]
      rfl
    · rw [h5, h4]
  refine ⟨?_, key, ?_⟩
  · intro h
    rw [clockIn_of_out w h hopen]
    exact isClockedIn_after_IN w _
  · intro h ⟨a, ha⟩
    have hno : ¬ "IN".toList <:+: lastFragment (logContent w) := by
      rw [ha, lastFragment_of_terminated]
      decide
    exact ⟨(key h).1.mpr hno, ((key h).2 hno).2.2⟩

/-- C12 at concrete logs at ".clocker": clock-in on the unterminated log "x"
makes the state clocked in, and on the log "clocking IN" with its newline
clock-out makes it clocked out, a second clock-out adding nothing. -/
theorem C12_witness :
    isClockedIn (clockIn (mkWorld none (some "x".toList))) = true ∧
    isClockedIn (clockOut (mkWorld none (some "clocking IN\n".toList))) = false ∧
    logContent (clockOut (clockOut (mkWorld none (some "clocking IN\n".toList)))) =
      logContent (mkWorld none (some "clocking IN\n".toList)) ++ "clocking OUT\n".toList :=
  ⟨(C12_accepted_command_toggles (mkWorld none (some "x".toList)) (by decide)).1 (by decide),
   ((C12_accepted_command_toggles (mkWorld none (some "clocking IN\n".toList))
      (by decide)).2.2 (by decide) ⟨"clocking IN".toList, by decide⟩).1,
   ((C12_accepted_command_toggles (mkWorld none (some "clocking IN\n".toList))
      (by decide)).2.2 (by decide) ⟨"clocking IN".toList, by decide⟩).2⟩

/-! ## Alternating logs -/

theorem unlines_concat (ls : List (List Char)) (l : List Char) :
    unlines (ls ++ [l]) = unlines ls ++ l ++ ['\n'] := by
  induction ls with
  | nil => simp [unlines]
  | cons a t ih => simp [unlines, ih]

theorem lines_unlines (ls : List (List Char)) (h : ∀ l ∈ ls, ∀ x ∈ l, x ≠ '\n') :
    lines (unlines ls) = ls := by
  induction ls with
  | nil => rfl
  | cons a t ih =>
    rw [unlines, lines_append_newline a _ (h a (List.mem_cons_self _ _)),
      ih (fun l hl => h l (List.mem_cons_of_mem _ hl))]

theorem altLine_even (i : Nat) (h : i % 2 = 0) : altLine i = "clocking IN".toList := by
  simp [altLine, h]

theorem altLine_odd (i : Nat) (h : i % 2 = 1) : altLine i = "clocking OUT".toList := by
  simp [altLine, h]

theorem altLine_no_newline (i : Nat) : ∀ x ∈ altLine i, x ≠ '\n' := by
  rcases Nat.mod_two_eq_zero_or_one i with h | h
  · rw [altLine_even i h]
    decide
  · rw [altLine_odd i h]
    decide

theorem altLog_succ (n : Nat) :
    unlines ((List.range (n + 1)).map altLine) =
      unlines ((List.range n).map altLine) ++ altLine n ++ ['\n'] := by
  rw [List.range_succ, List.map_append, List.map_singleton, unlines_concat]

theorem lines_altLog (n : Nat) :
    lines (unlines ((List.range n).map altLine)) = (List.range n).map altLine := by
  apply lines_unlines
  intro l hl
  obtain ⟨i, _, rfl⟩ := List.mem_map.mp hl
  exact altLine_no_newline i

theorem lastFragment_altLog (n : Nat) :
    lastFragment (unlines ((List.range n).map altLine)) = [] := by
  cases n with
  | zero => rfl
  | succ m => rw [altLog_succ, lastFragment_of_terminated]

/-- On an alternating log of `n` lines the inferred state is clocked in exactly
when `n` is odd. -/
theorem isClockedIn_altLog (w : World) (n : Nat)
    (h : logContent w = unlines ((List.range n).map altLine)) :
    isClockedIn w = true ↔ n % 2 = 1 := by
  cases n with
  | zero =>
    have : isClockedIn w = false := isClockedIn_of_empty w h
    simp [this]
  | succ m =>
    rw [isClockedIn_eq, h, altLog_succ]
    have hb : isBlank (altLine m) = false := by
      rcases Nat.mod_two_eq_zero_or_one m with e | e
      · rw [altLine_even m e]
        decide
      · rw [altLine_odd m e]
        decide
    rw [lastMeaningfulLine_after_append_exact _ _ (altLine_no_newline m) hb,
      lastFragment_altLog, List.nil_append]
    rcases Nat.mod_two_eq_zero_or_one m with e | e
    · rw [altLine_even m e]
      have : containsStr "clocking IN".toList "IN".toList = true := by decide
      simp only [this, true_iff]
      omega
    · rw [altLine_odd m e]
      have : containsStr "clocking OUT".toList "IN".toList = false := by decide
      simp only [this, Bool.false_eq_true, false_iff]
      omega

theorem count_altLines (n : Nat) :
    ((List.range n).map altLine).count "clocking IN".toList = (n + 1) / 2 ∧
    ((List.range n).map altLine).count "clocking OUT".toList = n / 2 := by
  induction n with
  | zero => exact ⟨rfl, rfl⟩
  | succ m ih =>
    rw [List.range_succ, List.map_append, List.map_singleton, List.count_append,
      List.count_append, ih.1, ih.2]
    rcases Nat.mod_two_eq_zero_or_one m with e | e
    · rw [altLine_even m e]
      have h1 : List.count "clocking IN".toList ["clocking IN".toList] = 1 := by decide
      have h2 : List.count "clocking OUT".toList ["clocking IN".toList] = 0 := by decide
      rw [h1, h2]
      omega
    · rw [altLine_odd m e]
      have h1 : List.count "clocking IN".toList ["clocking OUT".toList] = 0 := by decide
      have h2 : List.count "clocking OUT".toList ["clocking OUT".toList] = 1 := by decide
      rw [h1, h2]
      omega

/-! ## Runs of commands -/

theorem exec_clockIn (w : World) : exec Cmd.clockIn w = clockIn w := by
  unfold exec
  rw [main_of_in _ _ w (by decide)]

theorem exec_clockOut (w : World) : exec Cmd.clockOut w = clockOut w := by
  unfold exec
  rw [main_of_out _ _ w (by decide)]

theorem exec_report (w : World) : exec Cmd.report w = report w := by
  unfold exec
  rw [main_of_report _ _ w (by decide)]

/-- One command takes an alternating log to an alternating log. -/
theorem exec_keeps_alternating (c : Cmd) (w : World) (n : Nat)
    (h : logContent w = unlines ((List.range n).map altLine)) :
    ∃ m, logContent (exec c w) = unlines ((List.range m).map altLine) := by
  have hst := isClockedIn_altLog w n h
  cases c with
  | clockIn =>
    rw [exec_clockIn]
    cases hin : isClockedIn w with
    | true =>
      rw [clockIn_of_in w hin]
      exact ⟨n, h⟩
    | false =>
      cases hopen : appendOpens w (getClockerFileName w) with
      | false =>
        rw [clockIn_of_out_closed w hin hopen]
        exact ⟨n, h⟩
      | true =>
        have he : n % 2 = 0 := by
          rcases Nat.mod_two_eq_zero_or_one n with e | e
          · exact e
          · rw [hst.mpr e] at hin
            exact Bool.noConfusion hin
        refine ⟨n + 1, ?_⟩
        rw [clockIn_of_out w hin hopen, logContent_appended, altLog_succ, altLine_even n he, h]
  | clockOut =>
    rw [exec_clockOut]
    cases hin : isClockedIn w with
    | true =>
      cases hopen : appendOpens w (getClockerFileName w) with
      | false =>
        rw [clockOut_of_in_closed w hin hopen]
        exact ⟨n, h⟩
      | true =>
        refine ⟨n + 1, ?_⟩
        rw [clockOut_of_in w hin hopen, logContent_appended, altLog_succ,
          altLine_odd n (hst.mp hin), h]
    | false =>
      rw [clockOut_of_out w hin]
      exact ⟨n, h⟩
  | report =>
    rw [exec_report]
    exact ⟨n, h⟩

/-- Every run keeps the log alternating. -/
theorem run_keeps_alternating (cs : List Cmd) :
    ∀ (w : World) (n : Nat), logContent w = unlines ((List.range n).map altLine) →
      ∃ m, logContent (run cs w) = unlines ((List.range m).map altLine) := by
  induction cs with
  | nil => intro w n h; exact ⟨n, h⟩
  | cons c cs ih =>
    intro w n h
    obtain ⟨k, hk⟩ := exec_keeps_alternating c w n h
    exact ih (exec c w) k hk

/-- C13: every log reachable from the empty or absent log by a finite sequence
of in, out and report commands is, for some `n`, the text of `n`
newline-terminated lines where the line at each even place (the first
included) is "clocking IN" and the line at each odd place is "clocking OUT";
hence the number of "clocking IN" lines is the number of "clocking OUT" lines
or one more, and it is one more exactly when `isClockedIn` is true. -/
theorem C13_reachable_logs_alternate (cs : List Cmd) (w0 : World) (h0 : logContent w0 = []) :
    ∃ n, logContent (run cs w0) = unlines ((List.range n).map altLine) ∧
      lines (logContent (run cs w0)) = (List.range n).map altLine ∧
      ((lines (logContent (run cs w0))).count "clocking IN".toList =
          (lines (logContent (run cs w0))).count "clocking OUT".toList ∨
        (lines (logContent (run cs w0))).count "clocking IN".toList =
          (lines (logContent (run cs w0))).count "clocking OUT".toList + 1) ∧
      (isClockedIn (run cs w0) = true ↔
        (lines (logContent (run cs w0))).count "clocking IN".toList =
          (lines (logContent (run cs w0))).count "clocking OUT".toList + 1) := by
  obtain ⟨n, hn⟩ := run_keeps_alternating cs w0 0 h0
  have hl : lines (logContent (run cs w0)) = (List.range n).map altLine := by
    rw [hn, lines_altLog]
  have hc := count_altLines n
  have hst := isClockedIn_altLog (run cs w0) n hn
  refine ⟨n, hn, hl, ?_, ?_⟩
  · rw [hl, hc.1, hc.2]
    omega
  · rw [hl, hc.1, hc.2, hst]
    omega

/-- C13 on a run from the absent log: in, in, out, report, out, in. -/
theorem C13_witness :
    logContent (mkWorld none none) = [] ∧
    logContent (run [Cmd.clockIn, Cmd.clockIn, Cmd.clockOut, Cmd.report, Cmd.clockOut,
        Cmd.clockIn] (mkWorld none none)) = "clocking IN\nclocking OUT\nclocking IN\n".toList ∧
    ∃ n, logContent (run [Cmd.clockIn, Cmd.clockIn, Cmd.clockOut, Cmd.report, Cmd.clockOut,
          Cmd.clockIn] (mkWorld none none)) = unlines ((List.range n).map altLine) ∧
      lines (logContent (run [Cmd.clockIn, Cmd.clockIn, Cmd.clockOut, Cmd.report,
          Cmd.clockOut, Cmd.clockIn] (mkWorld none none))) = (List.range n).map altLine :=
  ⟨by decide, by decide,
   (C13_reachable_logs_alternate [Cmd.clockIn, Cmd.clockIn, Cmd.clockOut, Cmd.report,
      Cmd.clockOut, Cmd.clockIn] (mkWorld none none) (by decide)).imp
      (fun _ h => ⟨h.1, h.2.1⟩)⟩

end Clocker
